import Mathlib

/-!
Verification of the maze / perception core of the generative-agents
repository: the `Maze` grid store of `reverie/backend_server/maze.py`
(tiles, events, expansion, Bresenham line of sight, vision range) and the
`perceive` sampler of
`reverie/backend_server/persona/cognitive_modules/perceive.py` with the
`Scratch` accumulator fields of
`reverie/backend_server/persona/memory_structures/scratch.py`.

Python events are tuples of strings of varying length (full events have
four components, removal patterns one to three); they are embedded as
`List String`.  Python `set` fields are embedded as duplicate-free lists
recording an enumeration order.  Python numbers are embedded as `Int`.
The poignancy scoring function is external to the three source files (the
spec treats it as an opaque collaborator), so `perceive` takes it as a
function parameter.
-/

/-- A Python event tuple, embedded as a list of its string components. -/
abbrev Event := List String

/-- A tile of the maze: the dictionary built by `Maze._generate_tiles`. -/
structure Tile where
  x : Int
  y : Int
  type : String
  events : List Event
  description : String
  objects : List String
deriving Repr, DecidableEq

/-- The fresh tile `Maze._expand_maze` creates at coordinate `(x, y)`. -/
def freshTile (x y : Int) : Tile :=
  { x := x, y := y, type := "traversable", events := [], description := "",
    objects := [] }

/-- Junk tile used as the default of guarded list lookups; never reached
from a well-formed maze. -/
def dummyTile : Tile := freshTile (-1) (-1)

/-- The maze state: `width`, `height`, `layout` and `tiles` fields of the
Python `Maze` object. -/
structure Maze where
  width : Int
  height : Int
  layout : List (List Int)
  tiles : List (List Tile)
deriving Repr, DecidableEq

/-- `self.tiles[y][x]` for nonnegative in-range indices. -/
def Maze.getTile (m : Maze) (x y : Int) : Tile :=
  (m.tiles.getD y.toNat []).getD x.toNat dummyTile

/-- `self.layout[y][x]` for nonnegative in-range indices. -/
def Maze.layoutAt (m : Maze) (x y : Int) : Int :=
  (m.layout.getD y.toNat []).getD x.toNat 0

/-- Replace `self.tiles[y][x]` (nonnegative in-range indices). -/
def Maze.setTile (m : Maze) (x y : Int) (t : Tile) : Maze :=
  { m with tiles :=
      m.tiles.set y.toNat ((m.tiles.getD y.toNat []).set x.toNat t) }

/-- The Python bounds test `0 <= x < self.width and 0 <= y < self.height`. -/
def Maze.inB (m : Maze) (x y : Int) : Prop :=
  0 ≤ x ∧ x < m.width ∧ 0 ≤ y ∧ y < m.height

instance (m : Maze) (x y : Int) : Decidable (m.inB x y) := by
  unfold Maze.inB; infer_instance

/-- `Maze._generate_default_layout`: an all-zero matrix. -/
def generate_default_layout (width height : Int) : List (List Int) :=
  (List.range height.toNat).map fun _ =>
    (List.range width.toNat).map fun _ => 0

/-- `Maze._generate_tiles`: builds the tile matrix from the layout. -/
def generate_tiles (width height : Int) (layout : List (List Int)) :
    List (List Tile) :=
  (List.range height.toNat).map fun (yy : Nat) =>
    (List.range width.toNat).map fun (xx : Nat) =>
      { x := (xx : Int), y := (yy : Int),
        type := if (layout.getD yy []).getD xx 0 = 0 then "traversable"
                else "wall",
        events := [], description := "", objects := [] }

/-- `Maze.__init__` on the `width`/`height` path (the `maze_name` branch
does file I/O and is outside the verified core).  Python truthiness of an
integer is `≠ 0`; a falsy width or height falls through to the default
10×10 grid. -/
def Maze.init (width height : Int) (layout : Option (List (List Int))) :
    Maze :=
  if width ≠ 0 ∧ height ≠ 0 then
    let lay := layout.getD (generate_default_layout width height)
    { width := width, height := height, layout := lay,
      tiles := generate_tiles width height lay }
  else
    let lay := generate_default_layout 10 10
    { width := 10, height := 10, layout := lay,
      tiles := generate_tiles 10 10 lay }

/-- `Maze.is_traversable`. -/
def Maze.is_traversable (m : Maze) (tile : Int × Int) : Bool :=
  if m.inB tile.1 tile.2 then (m.getTile tile.1 tile.2).type == "traversable"
  else false

/-- `Maze.get_events_at`. -/
def Maze.get_events_at (m : Maze) (tile : Int × Int) : List Event :=
  if m.inB tile.1 tile.2 then (m.getTile tile.1 tile.2).events else []

/-- Python `set.add` on a tile's event set: a no-op when the event is
already present, otherwise the event joins the enumeration. -/
def Tile.addEvent (t : Tile) (e : Event) : Tile :=
  if e ∈ t.events then t else { t with events := t.events ++ [e] }

/-- `Maze.add_event`: bounds-guarded insertion. -/
def Maze.add_event (m : Maze) (tile : Int × Int) (e : Event) : Maze :=
  if m.inB tile.1 tile.2 then
    m.setTile tile.1 tile.2 ((m.getTile tile.1 tile.2).addEvent e)
  else m

/-- `Maze.get_distance`: Manhattan distance. -/
def get_distance (s e : Int × Int) : Int :=
  ((e.1 - s.1).natAbs : Int) + ((e.2 - s.2).natAbs : Int)

/-- The prefix test of `Maze.remove_event_from_tile`:
`event[:min_len] == existing_event[:min_len]`. -/
def prefixMatch (pat ev : Event) : Bool :=
  pat.take (min pat.length ev.length) == ev.take (min pat.length ev.length)

/-- `Maze.remove_event_from_tile`: verbatim removal when present,
otherwise removal of every existing tuple that agrees with the argument
on the first `min` components; out-of-bounds is a no-op. -/
def Maze.remove_event_from_tile (m : Maze) (e : Event) (tile : Int × Int) :
    Maze :=
  if m.inB tile.1 tile.2 then
    let t := m.getTile tile.1 tile.2
    let t' :=
      if e ∈ t.events then { t with events := t.events.erase e }
      else { t with events := t.events.filter fun ex => !(prefixMatch e ex) }
    m.setTile tile.1 tile.2 t'
  else m

/-- `Maze._expand_maze`: unconditionally rebuilds layout and tiles at the
requested dimensions, copying the overlap with the old grid and filling
the rest with traversable empty tiles. -/
def Maze.expand_maze (m : Maze) (new_width new_height : Int) : Maze :=
  let newLayout := (List.range new_height.toNat).map fun (y : Nat) =>
    (List.range new_width.toNat).map fun (x : Nat) =>
      if (y : Int) < min m.height new_height ∧
          (x : Int) < min m.width new_width then
        m.layoutAt (x : Int) (y : Int)
      else 0
  let newTiles := (List.range new_height.toNat).map fun (y : Nat) =>
    (List.range new_width.toNat).map fun (x : Nat) =>
      if (y : Int) < m.height ∧ (x : Int) < m.width then
        m.getTile (x : Int) (y : Int)
      else freshTile (x : Int) (y : Int)
  { width := new_width, height := new_height, layout := newLayout,
    tiles := newTiles }

/-- Python list indexing: nonnegative indices must be below the length,
negative indices wrap from the end, anything else is an `IndexError`. -/
def pyIdx (len : Nat) (i : Int) : Option Nat :=
  if 0 ≤ i then (if i < (len : Int) then some i.toNat else none)
  else (if -i ≤ (len : Int) then some (len - (-i).toNat) else none)

/-- `Maze.add_event_from_tile`: expands the maze when the bounds check
fails, then performs the raw `self.tiles[y][x]["events"].add(event)` with
Python indexing semantics (`none` is an uncaught `IndexError`). -/
def Maze.add_event_from_tile (m : Maze) (e : Event) (tile : Int × Int) :
    Option Maze :=
  let x := tile.1
  let y := tile.2
  let m1 := if ¬ m.inB x y then
      m.expand_maze (max m.width (x + 1)) (max m.height (y + 1))
    else m
  match pyIdx m1.tiles.length y with
  | none => none
  | some yi =>
    let row := m1.tiles.getD yi []
    match pyIdx row.length x with
    | none => none
    | some xi =>
      some { m1 with
        tiles := m1.tiles.set yi (row.set xi ((row.getD xi dummyTile).addEvent e)) }

/-- The loop body of `Maze.has_line_of_sight`: walks `fuel` steps of the
incremental digital line, returning `false` at the first visited tile
that is non-traversable and different from the destination. -/
def losAux (m : Maze) (e : Int × Int) (x_inc y_inc dx2 dy2 : Int) :
    Nat → Int → Int → Int → Bool
  | 0, _, _, _ => true
  | fuel + 1, x, y, err =>
    if ¬ m.is_traversable (x, y) ∧ (x, y) ≠ e then false
    else if err > 0 then losAux m e x_inc y_inc dx2 dy2 fuel (x + x_inc) y (err - dy2)
    else losAux m e x_inc y_inc dx2 dy2 fuel x (y + y_inc) (err + dx2)

/-- `Maze.has_line_of_sight`: Bresenham walk from `start` to `stop`. -/
def Maze.has_line_of_sight (m : Maze) (start stop : Int × Int) : Bool :=
  let dx := ((stop.1 - start.1).natAbs : Int)
  let dy := ((stop.2 - start.2).natAbs : Int)
  let n : Nat := 1 + (stop.1 - start.1).natAbs + (stop.2 - start.2).natAbs
  let x_inc : Int := if stop.1 > start.1 then 1 else -1
  let y_inc : Int := if stop.2 > start.2 then 1 else -1
  losAux m stop x_inc y_inc (dx * 2) (dy * 2) n start.1 start.2 (dx - dy)

/-- The list of tiles visited by the walk of `losAux`, in visiting
order. -/
def losWalkAux (x_inc y_inc dx2 dy2 : Int) :
    Nat → Int → Int → Int → List (Int × Int)
  | 0, _, _, _ => []
  | fuel + 1, x, y, err =>
    (x, y) ::
      (if err > 0 then losWalkAux x_inc y_inc dx2 dy2 fuel (x + x_inc) y (err - dy2)
       else losWalkAux x_inc y_inc dx2 dy2 fuel x (y + y_inc) (err + dx2))

/-- The tiles visited by the digital-line walk of `has_line_of_sight`. -/
def losWalk (start stop : Int × Int) : List (Int × Int) :=
  let dx := ((stop.1 - start.1).natAbs : Int)
  let dy := ((stop.2 - start.2).natAbs : Int)
  let n : Nat := 1 + (stop.1 - start.1).natAbs + (stop.2 - start.2).natAbs
  let x_inc : Int := if stop.1 > start.1 then 1 else -1
  let y_inc : Int := if stop.2 > start.2 then 1 else -1
  losWalkAux x_inc y_inc (dx * 2) (dy * 2) n start.1 start.2 (dx - dy)

/-- The integer interval of Python `range(a, b)`. -/
def intRange (a b : Int) : List Int :=
  (List.range (b - a).toNat).map fun (i : Nat) => a + (i : Int)

/-- `Maze.get_tiles_in_vision_range`: the double loop over offsets
`dy, dx ∈ range(-vision_radius, vision_radius + 1)`, keeping in-bounds
targets within Manhattan distance that pass the line-of-sight test.
`center_tile = none` is the Python falsy case. -/
def Maze.get_tiles_in_vision_range (m : Maze) (center : Option (Int × Int))
    (vision_radius : Int) : List (Int × Int) :=
  match center with
  | none => []
  | some c =>
    if ¬ m.inB c.1 c.2 then []
    else
      (intRange (-vision_radius) (vision_radius + 1)).flatMap fun dy =>
        (intRange (-vision_radius) (vision_radius + 1)).filterMap fun dx =>
          let tx := c.1 + dx
          let ty := c.2 + dy
          if m.inB tx ty ∧
              ((dx.natAbs : Int) + (dy.natAbs : Int) ≤ vision_radius) ∧
              m.has_line_of_sight c (tx, ty) then
            some (tx, ty)
          else none

/-- Well-formedness of a maze: `tiles` and `layout` have exactly
`height` rows of `width` entries each, and dimensions are nonnegative.
Every maze the Python constructor or expansion produces satisfies it. -/
def Maze.WF (m : Maze) : Prop :=
  0 ≤ m.width ∧ 0 ≤ m.height ∧
  m.tiles.length = m.height.toNat ∧
  (∀ row ∈ m.tiles, row.length = m.width.toNat) ∧
  m.layout.length = m.height.toNat ∧
  (∀ row ∈ m.layout, row.length = m.width.toNat)

instance (m : Maze) : Decidable m.WF := by
  unfold Maze.WF; infer_instance

/-- The `Scratch` fields that `perceive` reads and writes
(`scratch.py`, `_init_defaults`): position, vision radius, attention
bandwidth and the importance accumulator. -/
structure Scratch where
  curr_tile : Option (Int × Int)
  vision_r : Int
  att_bandwidth : Nat
  importance_trigger_curr : Int
  importance_ele_n : Int
deriving Repr, DecidableEq

/-- Normalization of `perceive`'s first loop: events with fewer than two
components are skipped; others are padded to the canonical 4-tuple and
paired with their tile's Manhattan distance from the agent. -/
def formatEvent (ev : Event) : Event :=
  [ev.getD 0 "", ev.getD 1 "", ev.getD 2 "", ev.getD 3 ""]

/-- The candidate list `percept_events_list` built by `perceive` before
sorting: for each visible tile in vision-range order, each event of the
tile in enumeration order. -/
def perceiveCandidates (m : Maze) (curr : Int × Int) (vision_r : Int) :
    List (Int × Event) :=
  (m.get_tiles_in_vision_range (some curr) vision_r).flatMap fun tile =>
    (m.get_events_at tile).filterMap fun ev =>
      if 2 ≤ ev.length then some (get_distance curr tile, formatEvent ev)
      else none

/-- The comparison used by `percept_events_list.sort(key=lambda x: x[0])`;
Python `list.sort` is a stable ascending sort. -/
def distLE (a b : Int × Event) : Bool := a.1 ≤ b.1

/-- `perceive`: returns the perceived events and the updated scratch.
The external poignancy scorer (the spec's opaque collaborator, defined
outside the three source files) is the parameter `score`. -/
def perceive (m : Maze) (s : Scratch) (score : Event → Int) :
    List Event × Scratch :=
  match s.curr_tile with
  | none => ([], s)
  | some curr =>
    let sorted := (perceiveCandidates m curr s.vision_r).mergeSort distLE
    let taken := sorted.take s.att_bandwidth
    ( taken.map Prod.snd,
      { s with
        importance_trigger_curr :=
          taken.foldl (fun acc te => acc - score te.2)
            s.importance_trigger_curr,
        importance_ele_n := s.importance_ele_n + (taken.length : Int) } )

/-- Example: the 5×5 layout of the spec scenario, with a wall at (2,2). -/
def lay5 : List (List Int) :=
  [[0,0,0,0,0],[0,0,0,0,0],[0,0,1,0,0],[0,0,0,0,0],[0,0,0,0,0]]

/-- Example: 5×5 maze with a wall at (2,2). -/
def maze5 : Maze := Maze.init 5 5 (some lay5)

/-- Example: the Bob event of the spec scenarios. -/
def evBob : Event := ["Bob", "eating", "apple", ""]

/-- Example: 5×5 maze with events for the perception scenario. -/
def mazeP : Maze :=
  ((maze5.add_event (4,2) evBob).add_event
      (1,1) ["Carl", "reading"]).add_event (0,2) ["Dee", "idle", "", ""]

/-- Example: the scratch state of the perception scenario. -/
def scrP : Scratch :=
  { curr_tile := some (0,2), vision_r := 4, att_bandwidth := 3,
    importance_trigger_curr := 10, importance_ele_n := 0 }

/-- Example: a tile holding two Bob events and one Alice event. -/
def mazeBob : Maze :=
  (((Maze.init 1 1 none).add_event (0,0) evBob).add_event
      (0,0) ["Bob", "walking", "", ""]).add_event
      (0,0) ["Alice", "eating", "apple", ""]

/-- Example: a 1×1 maze already holding the Bob event. -/
def mazePresent : Maze := (Maze.init 1 1 none).add_event (0,0) evBob

/-- Example: a 1×1 maze holding a two-component event. -/
def mazeShort : Maze := (Maze.init 1 1 none).add_event (0,0) ["Bob", "eating"]

/-- Example: a plain 2×2 maze. -/
def maze22 : Maze := Maze.init 2 2 none

/-- Example: a generic full event tuple. -/
def evC : Event := ["e", "p", "o", ""]

/-- Example: the maze produced by adding `evC` at the negative coordinate
`(0, -1)` of `maze22`. -/
def mazeShift : Maze :=
  (maze22.add_event_from_tile evC (0, -1)).getD maze22

/-- Example: the maze produced by adding `evC` at the out-of-bounds
nonnegative coordinate `(4, 1)` of `maze22`, forcing expansion. -/
def mazeGrown : Maze :=
  (maze22.add_event_from_tile evC (4, 1)).getD maze22

/-- Row-major ordering on coordinates: earlier row, or same row and
smaller column. -/
def rowMajorLT (a b : Int × Int) : Prop :=
  a.2 < b.2 ∨ (a.2 = b.2 ∧ a.1 < b.1)

/-- The early-exit loop of `has_line_of_sight` answers `false` exactly
when the list of visited tiles contains a non-traversable tile other
than the destination. -/
theorem losAux_false_iff (m : Maze) (e : Int × Int) (xi yi dx2 dy2 : Int) :
    ∀ (n : Nat) (x y err : Int),
      losAux m e xi yi dx2 dy2 n x y err = false ↔
        ∃ t ∈ losWalkAux xi yi dx2 dy2 n x y err,
          t ≠ e ∧ m.is_traversable t = false := by
  intro n
  induction n with
  | zero => intro x y err; simp [losAux, losWalkAux]
  | succ n ih =>
    intro x y err
    rw [losAux, losWalkAux]
    by_cases hb : ¬ m.is_traversable (x, y) = true ∧ (x, y) ≠ e
    · rw [if_pos hb]
      constructor
      · intro _
        refine ⟨(x, y), List.mem_cons_self _ _, hb.2, ?_⟩
        simpa using hb.1
      · intro _; rfl
    · rw [if_neg hb]
      have hxy : ¬ ((x, y) ≠ e ∧ m.is_traversable (x, y) = false) := by
        rintro ⟨hne, hf⟩
        exact hb ⟨by simp [hf], hne⟩
      by_cases herr : err > 0
      · rw [if_pos herr, if_pos herr, ih]
        simp only [List.mem_cons]
        constructor
        · rintro ⟨t, ht, hp⟩
          exact ⟨t, Or.inr ht, hp⟩
        · rintro ⟨t, ht | ht, hp⟩
          · subst ht; exact absurd hp hxy
          · exact ⟨t, ht, hp⟩
      · rw [if_neg herr, if_neg herr, ih]
        simp only [List.mem_cons]
        constructor
        · rintro ⟨t, ht, hp⟩
          exact ⟨t, Or.inr ht, hp⟩
        · rintro ⟨t, ht | ht, hp⟩
          · subst ht; exact absurd hp hxy
          · exact ⟨t, ht, hp⟩

/-- C2: `has_line_of_sight(a, b)` is false exactly when some tile of the
digital-line walk from `a` to `b` other than the destination `b` is
non-traversable; the destination's own traversability never blocks
sight, and `has_line_of_sight(a, a)` is true for every tile `a`,
including walls. -/
theorem has_line_of_sight_spec (m : Maze) (a b : Int × Int) :
    (m.has_line_of_sight a b = false ↔
      ∃ t ∈ losWalk a b, t ≠ b ∧ m.is_traversable t = false) ∧
    m.has_line_of_sight a a = true := by
  constructor
  · rw [Maze.has_line_of_sight, losWalk]
    exact losAux_false_iff m b _ _ _ _ _ _ _ _
  · simp [Maze.has_line_of_sight, losAux]

/-- Membership in the embedded Python `range(a, b)`. -/
theorem mem_intRange {a b x : Int} : x ∈ intRange a b ↔ a ≤ x ∧ x < b := by
  unfold intRange
  simp only [List.mem_map, List.mem_range]
  constructor
  · rintro ⟨i, hi, rfl⟩
    omega
  · intro h
    exact ⟨(x - a).toNat, by omega, by omega⟩

/-- `range(a, b)` is strictly increasing. -/
theorem intRange_pairwise (a b : Int) : (intRange a b).Pairwise (· < ·) := by
  unfold intRange
  rw [List.pairwise_map]
  exact List.Pairwise.imp (by omega) (List.pairwise_lt_range _)

/-- C1: a tile is in `get_tiles_in_vision_range(center, r)` iff it is in
bounds, within Manhattan distance `r` of the center, and line of sight
from the center holds; the result is strictly row-major ordered (by `dy`
then `dx`) and duplicate-free; an unset or out-of-bounds center yields
the empty list. -/
theorem vision_range_spec (m : Maze) (c : Int × Int) (r : Int)
    (hc : m.inB c.1 c.2) (hr : 0 ≤ r) :
    (∀ t : Int × Int,
        t ∈ m.get_tiles_in_vision_range (some c) r ↔
          m.inB t.1 t.2 ∧ get_distance c t ≤ r ∧
            m.has_line_of_sight c t = true) ∧
    (m.get_tiles_in_vision_range (some c) r).Pairwise rowMajorLT ∧
    (m.get_tiles_in_vision_range (some c) r).Nodup ∧
    m.get_tiles_in_vision_range none r = [] ∧
    (∀ c2 : Int × Int, ¬ m.inB c2.1 c2.2 →
        m.get_tiles_in_vision_range (some c2) r = []) := by
  have hpw : (m.get_tiles_in_vision_range (some c) r).Pairwise rowMajorLT := by
    simp only [Maze.get_tiles_in_vision_range, if_neg (not_not_intro hc)]
    rw [List.pairwise_flatMap]
    constructor
    · intro dy _
      refine List.Pairwise.filterMap _ ?_ (intRange_pairwise _ _)
      intro dx dx2 hlt p hp q hq
      simp only [Option.mem_def, Option.ite_none_right_eq_some,
        Option.some.injEq] at hp hq
      obtain ⟨-, rfl⟩ := hp
      obtain ⟨-, rfl⟩ := hq
      exact Or.inr ⟨rfl, by omega⟩
    · refine List.Pairwise.imp ?_ (intRange_pairwise (-r) (r + 1))
      intro dy1 dy2 hlt p hp q hq
      simp only [List.mem_filterMap, Option.ite_none_right_eq_some,
        Option.some.injEq] at hp hq
      obtain ⟨dx1, -, -, rfl⟩ := hp
      obtain ⟨dx2, -, -, rfl⟩ := hq
      exact Or.inl (by omega)
  refine ⟨?_, hpw, ?_, rfl, ?_⟩
  · intro t
    constructor
    · intro ht
      simp only [Maze.get_tiles_in_vision_range, if_neg (not_not_intro hc),
        List.mem_flatMap, List.mem_filterMap, mem_intRange,
        Option.ite_none_right_eq_some, Option.some.injEq] at ht
      obtain ⟨dy, hdy, dx, hdx, ⟨hin, hdist, hlos⟩, rfl⟩ := ht
      refine ⟨hin, ?_, hlos⟩
      simp only [get_distance]
      omega
    · rintro ⟨hin, hdist, hlos⟩
      simp only [Maze.get_tiles_in_vision_range, if_neg (not_not_intro hc),
        List.mem_flatMap, List.mem_filterMap, mem_intRange,
        Option.ite_none_right_eq_some, Option.some.injEq]
      simp only [get_distance] at hdist
      have h1 : c.1 + (t.1 - c.1) = t.1 := by omega
      have h2 : c.2 + (t.2 - c.2) = t.2 := by omega
      refine ⟨t.2 - c.2, by omega, t.1 - c.1, by omega, ⟨?_, by omega, ?_⟩, ?_⟩
      · rw [h1, h2]; exact hin
      · rw [h1, h2]; simpa using hlos
      · rw [h1, h2]
  · exact hpw.imp (fun {a b} h => by
      rintro rfl
      rcases h with h | ⟨-, h⟩ <;> omega)
  · intro c2 hc2
    simp only [Maze.get_tiles_in_vision_range, if_pos hc2]

/-- Witness for C1 at the 5×5 wall scenario: tile (1,1) seen from (0,2)
with radius 4. -/
theorem vision_range_spec_witness :
    maze5.inB 0 2 ∧ (0 : Int) ≤ 4 ∧
      ((1, 1) ∈ maze5.get_tiles_in_vision_range (some (0, 2)) 4 ↔
        maze5.inB 1 1 ∧ get_distance (0, 2) (1, 1) ≤ 4 ∧
          maze5.has_line_of_sight (0, 2) (1, 1) = true) :=
  ⟨by decide, by decide,
    (vision_range_spec maze5 (0, 2) 4 (by decide) (by decide)).1 (1, 1)⟩

/-- The distance comparison is transitive. -/
theorem distLE_trans (a b c : Int × Event) :
    distLE a b → distLE b c → distLE a c := by
  simp only [distLE, decide_eq_true_eq]
  omega

/-- The distance comparison is total. -/
theorem distLE_total (a b : Int × Event) : distLE a b || distLE b a := by
  simp only [distLE, Bool.or_eq_true, decide_eq_true_eq]
  omega

/-- C3: with a set position, `perceive` returns at most
`att_bandwidth` events, namely the mapped prefix of the candidate list
stable-sorted ascending by distance (ties keep candidate order, stated
as preservation of each equal-distance fibre); with at least `k`
candidates at pairwise distinct distances the result has exactly `k`
events, in strictly ascending distance order, and every taken candidate
is strictly closer than every dropped one. -/
theorem perceive_sampler_spec (m : Maze) (s : Scratch) (score : Event → Int)
    (c : Int × Int) (hc : s.curr_tile = some c) :
    (perceive m s score).1.length ≤ s.att_bandwidth ∧
    (perceive m s score).1 =
      (((perceiveCandidates m c s.vision_r).mergeSort distLE).take
          s.att_bandwidth).map Prod.snd ∧
    ((perceiveCandidates m c s.vision_r).mergeSort distLE).Perm
      (perceiveCandidates m c s.vision_r) ∧
    ((perceiveCandidates m c s.vision_r).mergeSort distLE).Pairwise
      (fun p q => p.1 ≤ q.1) ∧
    (∀ d : Int,
      ((perceiveCandidates m c s.vision_r).mergeSort distLE).filter
          (fun p => p.1 == d) =
        (perceiveCandidates m c s.vision_r).filter (fun p => p.1 == d)) ∧
    ((perceiveCandidates m c s.vision_r).Pairwise (fun p q => p.1 ≠ q.1) →
      s.att_bandwidth ≤ (perceiveCandidates m c s.vision_r).length →
      (perceive m s score).1.length = s.att_bandwidth ∧
      (((perceiveCandidates m c s.vision_r).mergeSort distLE).take
          s.att_bandwidth).Pairwise (fun p q => p.1 < q.1) ∧
      ∀ p ∈ ((perceiveCandidates m c s.vision_r).mergeSort distLE).take
          s.att_bandwidth,
        ∀ q ∈ ((perceiveCandidates m c s.vision_r).mergeSort distLE).drop
          s.att_bandwidth, p.1 < q.1) := by
  have hperm := List.mergeSort_perm (perceiveCandidates m c s.vision_r) distLE
  have hsorted :=
    List.sorted_mergeSort distLE_trans distLE_total
      (perceiveCandidates m c s.vision_r)
  have hres : (perceive m s score).1 =
      (((perceiveCandidates m c s.vision_r).mergeSort distLE).take
          s.att_bandwidth).map Prod.snd := by
    simp only [perceive, hc]
  refine ⟨?_, hres, hperm, ?_, ?_, ?_⟩
  · rw [hres]
    simp only [List.length_map, List.length_take]
    omega
  · exact hsorted.imp (by simp only [distLE, decide_eq_true_eq]; exact id)
  · intro d
    have hpw : ((perceiveCandidates m c s.vision_r).filter
        (fun p => p.1 == d)).Pairwise (fun a b => distLE a b) := by
      apply List.pairwise_of_forall_mem_list
      intro a ha b hb
      have ha2 := List.of_mem_filter ha
      have hb2 := List.of_mem_filter hb
      simp only [beq_iff_eq] at ha2 hb2
      simp only [distLE, decide_eq_true_eq, ha2, hb2, le_refl]
    have hsub : List.Sublist
        ((perceiveCandidates m c s.vision_r).filter (fun p => p.1 == d))
        ((perceiveCandidates m c s.vision_r).mergeSort distLE) :=
      List.sublist_mergeSort distLE_trans distLE_total hpw
        (List.filter_sublist _)
    have hsub2 := hsub.filter (fun p => p.1 == d)
    rw [List.filter_filter] at hsub2
    simp only [Bool.and_self] at hsub2
    have hlen : (((perceiveCandidates m c s.vision_r).mergeSort
        distLE).filter (fun p => p.1 == d)).length =
        (((perceiveCandidates m c s.vision_r)).filter
          (fun p => p.1 == d)).length :=
      (hperm.filter _).length_eq
    exact (hsub2.eq_of_length hlen.symm).symm
  · intro hdist hk
    have hsortnd : ((perceiveCandidates m c s.vision_r).mergeSort
        distLE).Pairwise (fun p q => p.1 ≠ q.1) :=
      (hperm.pairwise_iff (fun h => h.symm)).2 hdist
    have hlt : ((perceiveCandidates m c s.vision_r).mergeSort
        distLE).Pairwise (fun p q => p.1 < q.1) :=
      (hsorted.and hsortnd).imp (fun {a b} h => by
        obtain ⟨h1, h2⟩ := h
        simp only [distLE, decide_eq_true_eq] at h1
        omega)
    refine ⟨?_, hlt.sublist (List.take_sublist _ _), ?_⟩
    · rw [hres]
      simp only [List.length_map, List.length_take,
        List.length_mergeSort]
      omega
    · have hsplit := hlt
      rw [← List.take_append_drop s.att_bandwidth
        ((perceiveCandidates m c s.vision_r).mergeSort distLE),
        List.pairwise_append] at hsplit
      exact hsplit.2.2

/-- Witness for C3 at the perception scenario. -/
theorem perceive_sampler_spec_witness :
    scrP.curr_tile = some (0, 2) ∧
      (perceive mazeP scrP (fun _ => 2)).1.length ≤ scrP.att_bandwidth :=
  ⟨by decide,
    (perceive_sampler_spec mazeP scrP (fun _ => 2) (0, 2) (by decide)).1⟩

/-- Folding subtraction over a list subtracts the sum of the mapped
values. -/
theorem foldl_sub_map_sum {α : Type} (f : α → Int) :
    ∀ (l : List α) (init : Int),
      l.foldl (fun acc te => acc - f te) init = init - (l.map f).sum := by
  intro l
  induction l with
  | nil => simp
  | cons a l ih =>
    intro init
    simp only [List.foldl_cons, List.map_cons, List.sum_cons, ih]
    omega

/-- C4: after `perceive` returns `m` events, the importance accumulator
was updated exactly once per returned event: the trigger decreased by
the score of each returned event and the element counter increased by
exactly `m`. -/
theorem perceive_accumulator_spec (m : Maze) (s : Scratch)
    (score : Event → Int) :
    (perceive m s score).2.importance_trigger_curr =
      s.importance_trigger_curr - ((perceive m s score).1.map score).sum ∧
    (perceive m s score).2.importance_ele_n =
      s.importance_ele_n + ((perceive m s score).1.length : Int) := by
  cases hs : s.curr_tile with
  | none => simp [perceive, hs]
  | some c =>
    simp only [perceive, hs]
    constructor
    · rw [List.map_map]
      exact foldl_sub_map_sum (fun (te : Int × Event) => score te.2) _ _
    · simp

/-- `getD` after `set` at the same in-range index. -/
theorem getD_set_self {α : Type} (l : List α) (i : Nat) (a d : α)
    (h : i < l.length) : (l.set i a).getD i d = a := by
  rw [List.getD_eq_getElem?_getD, List.getElem?_set_self h]
  rfl

/-- `getD` after `set` at a different index. -/
theorem getD_set_ne {α : Type} (l : List α) (i j : Nat) (a d : α)
    (h : i ≠ j) : (l.set i a).getD j d = l.getD j d := by
  rw [List.getD_eq_getElem?_getD, List.getElem?_set_ne h,
    ← List.getD_eq_getElem?_getD]

/-- Writing back the element read at an in-range index is a no-op. -/
theorem set_getD_self {α : Type} :
    ∀ (l : List α) (i : Nat) (d : α), i < l.length →
      l.set i (l.getD i d) = l
  | [], i, d, h => by simp at h
  | b :: l, 0, d, _ => rfl
  | b :: l, i + 1, d, h => by
    rw [List.getD_cons_succ, List.set_cons_succ,
      set_getD_self l i d (by simpa using h)]

/-- An in-range `getD` is a member of the list. -/
theorem getD_mem_of_lt {α : Type} (l : List α) (i : Nat) (d : α)
    (h : i < l.length) : l.getD i d ∈ l := by
  rw [List.getD_eq_getElem?_getD, List.getElem?_eq_getElem h]
  exact List.getElem_mem h

/-- Under well-formedness, the row index of an in-bounds coordinate is in
range. -/
theorem row_index_lt (m : Maze) (hWF : m.WF) {x y : Int} (h : m.inB x y) :
    y.toNat < m.tiles.length := by
  obtain ⟨hw0, hh0, htl, hrl, hll, hlrl⟩ := hWF
  obtain ⟨hx0, hxw, hy0, hyh⟩ := h
  omega

/-- Under well-formedness, the column index of an in-bounds coordinate is
in range for its row. -/
theorem col_index_lt (m : Maze) (hWF : m.WF) {x y : Int} (h : m.inB x y) :
    x.toNat < (m.tiles.getD y.toNat []).length := by
  have hy := row_index_lt m hWF h
  obtain ⟨hw0, hh0, htl, hrl, hll, hlrl⟩ := hWF
  obtain ⟨hx0, hxw, hy0, hyh⟩ := h
  rw [hrl _ (getD_mem_of_lt _ _ _ hy)]
  omega

/-- Reading back a tile just written. -/
theorem getTile_setTile_self (m : Maze) (hWF : m.WF) {x y : Int}
    (h : m.inB x y) (t : Tile) : (m.setTile x y t).getTile x y = t := by
  unfold Maze.setTile Maze.getTile
  rw [getD_set_self _ _ _ _ (row_index_lt m hWF h),
    getD_set_self _ _ _ _ (col_index_lt m hWF h)]

/-- Writing a tile leaves every other nonnegative coordinate unchanged. -/
theorem getTile_setTile_ne (m : Maze) {x y : Int} (hx : 0 ≤ x) (hy : 0 ≤ y)
    (t : Tile) (u v : Int) (hu : 0 ≤ u) (hv : 0 ≤ v)
    (hne : ¬ (u = x ∧ v = y)) :
    (m.setTile x y t).getTile u v = m.getTile u v := by
  unfold Maze.setTile Maze.getTile
  by_cases hvy : v.toNat = y.toNat
  · have hun : u.toNat ≠ x.toNat := by omega
    by_cases hylen : y.toNat < m.tiles.length
    · rw [hvy, getD_set_self _ _ _ _ hylen,
        getD_set_ne _ _ _ _ _ (fun hh => hun hh.symm)]
    · rw [List.set_eq_of_length_le (by omega)]
  · rw [getD_set_ne _ _ _ _ _ (fun hh => hvy hh.symm)]

/-- Writing a tile preserves well-formedness. -/
theorem WF_setTile (m : Maze) (hWF : m.WF) {x y : Int} (h : m.inB x y)
    (t : Tile) : (m.setTile x y t).WF := by
  have hy := row_index_lt m hWF h
  obtain ⟨hw0, hh0, htl, hrl, hll, hlrl⟩ := hWF
  refine ⟨hw0, hh0, ?_, ?_, hll, hlrl⟩
  · simp only [Maze.setTile, List.length_set]
    exact htl
  · intro row hrow
    simp only [Maze.setTile] at hrow
    rcases List.mem_or_eq_of_mem_set hrow with hr | hr
    · exact hrl row hr
    · subst hr
      rw [List.length_set]
      exact hrl _ (getD_mem_of_lt _ _ _ hy)

/-- Writing back the tile just read is a no-op. -/
theorem setTile_getTile_self (m : Maze) (hWF : m.WF) {x y : Int}
    (h : m.inB x y) : m.setTile x y (m.getTile x y) = m := by
  have hrow := row_index_lt m hWF h
  have hcol := col_index_lt m hWF h
  unfold Maze.setTile Maze.getTile
  cases m with
  | mk w hgt lay tl =>
    simp only [Maze.mk.injEq, true_and]
    rw [set_getD_self _ _ _ hcol, set_getD_self _ _ _ hrow]

/-- Reduction of `remove_event_from_tile` at an in-bounds coordinate. -/
theorem remove_eft_inB (m : Maze) {x y : Int} (hin : m.inB x y) (e : Event) :
    m.remove_event_from_tile e (x, y) =
      m.setTile x y
        (if e ∈ (m.getTile x y).events then
          { m.getTile x y with events := (m.getTile x y).events.erase e }
        else
          { m.getTile x y with
            events := (m.getTile x y).events.filter
              fun ex => !(prefixMatch e ex) }) := by
  unfold Maze.remove_event_from_tile
  rw [if_pos hin]

/-- Reduction of `add_event` at an in-bounds coordinate. -/
theorem add_event_inB (m : Maze) {x y : Int} (hin : m.inB x y) (e : Event) :
    m.add_event (x, y) e = m.setTile x y ((m.getTile x y).addEvent e) := by
  unfold Maze.add_event
  rw [if_pos hin]

/-- Removing a non-verbatim-present event filters the addressed tile's
event list by the prefix test. -/
theorem remove_eft_events_of_not_mem (m : Maze) (hWF : m.WF) {x y : Int}
    (hin : m.inB x y) (e : Event)
    (hnm : e ∉ (m.getTile x y).events) :
    ((m.remove_event_from_tile e (x, y)).getTile x y).events =
      (m.getTile x y).events.filter (fun ex => !(prefixMatch e ex)) := by
  rw [remove_eft_inB m hin e, if_neg hnm, getTile_setTile_self m hWF hin]

/-- C5: at an in-bounds tile holding full 4-tuple events, removal with a
partial pattern of length 1 to 3 removes exactly the events whose prefix
of the common length equals the pattern, leaving the others in place;
out-of-bounds removal is a no-op. -/
theorem remove_partial_spec (m : Maze) (pat : Event) (x y : Int)
    (hWF : m.WF) (hin : m.inB x y) (hlen1 : 1 ≤ pat.length)
    (hlen3 : pat.length ≤ 3)
    (h4 : ∀ ev ∈ (m.getTile x y).events, ev.length = 4) :
    ((m.remove_event_from_tile pat (x, y)).getTile x y).events =
      (m.getTile x y).events.filter (fun ex => !(prefixMatch pat ex)) ∧
    ∀ (u v : Int), ¬ m.inB u v → m.remove_event_from_tile pat (u, v) = m := by
  constructor
  · apply remove_eft_events_of_not_mem m hWF hin
    intro hmem
    have := h4 pat hmem
    omega
  · intro u v huv
    unfold Maze.remove_event_from_tile
    rw [if_neg huv]

/-- Witness for C5: the Bob/Alice scenario; the pattern `("Bob",)`
removes both Bob events and leaves Alice's. -/
theorem remove_partial_spec_witness :
    mazeBob.WF ∧ mazeBob.inB 0 0 ∧ 1 ≤ (["Bob"] : Event).length ∧
      (["Bob"] : Event).length ≤ 3 ∧
      (∀ ev ∈ (mazeBob.getTile 0 0).events, ev.length = 4) ∧
      ((mazeBob.remove_event_from_tile ["Bob"] (0, 0)).getTile 0 0).events =
        (mazeBob.getTile 0 0).events.filter
          (fun ex => !(prefixMatch ["Bob"] ex)) ∧
      ((mazeBob.remove_event_from_tile ["Bob"] (0, 0)).getTile 0 0).events =
        [["Alice", "eating", "apple", ""]] :=
  ⟨by decide, by decide, by decide, by decide, by decide,
    (remove_partial_spec mazeBob ["Bob"] 0 0 (by decide) (by decide)
      (by decide) (by decide) (by decide)).1,
    by decide⟩

/-- C10: removing a full 4-tuple that is not present verbatim also
performs prefix-pattern removal: every stored tuple agreeing with the
argument on the first `min` components is removed. -/
theorem remove_full_prefix_spec (m : Maze) (e : Event) (x y : Int)
    (hWF : m.WF) (hin : m.inB x y) (_he4 : e.length = 4)
    (hnm : e ∉ (m.getTile x y).events) :
    ((m.remove_event_from_tile e (x, y)).getTile x y).events =
      (m.getTile x y).events.filter (fun ex => !(prefixMatch e ex)) :=
  remove_eft_events_of_not_mem m hWF hin e hnm

/-- Witness for C10: a stored two-component event sharing the prefix of
an absent full tuple is removed, so the set does change. -/
theorem remove_full_prefix_spec_witness :
    mazeShort.WF ∧ mazeShort.inB 0 0 ∧ evBob.length = 4 ∧
      evBob ∉ (mazeShort.getTile 0 0).events ∧
      ((mazeShort.remove_event_from_tile evBob (0, 0)).getTile 0 0).events =
        (mazeShort.getTile 0 0).events.filter
          (fun ex => !(prefixMatch evBob ex)) ∧
      ((mazeShort.remove_event_from_tile evBob (0, 0)).getTile 0 0).events ≠
        (mazeShort.getTile 0 0).events :=
  ⟨by decide, by decide, by decide, by decide,
    remove_full_prefix_spec mazeShort evBob 0 0 (by decide) (by decide)
      (by decide) (by decide),
    by decide⟩

/-- C6 counterexample: when the event is already present, the add is a
set no-op but the remove still deletes it, so the round trip does not
restore the tile's event set. -/
theorem add_remove_roundtrip_counterexample :
    (((mazePresent.add_event (0, 0) evBob).remove_event_from_tile evBob
        (0, 0)).getTile 0 0).events ≠ (mazePresent.getTile 0 0).events := by
  decide

/-- C6 (amended): for a full event tuple not already present, adding and
then removing it restores the tile's event list, and adding twice equals
adding once (set idempotence). -/
theorem add_remove_roundtrip_spec (m : Maze) (e : Event) (x y : Int)
    (hWF : m.WF) (hin : m.inB x y) (_he4 : e.length = 4)
    (hnm : e ∉ (m.getTile x y).events) :
    (((m.add_event (x, y) e).remove_event_from_tile e (x, y)).getTile x
        y).events = (m.getTile x y).events ∧
    (m.add_event (x, y) e).add_event (x, y) e = m.add_event (x, y) e := by
  have hadd : m.add_event (x, y) e =
      m.setTile x y ((m.getTile x y).addEvent e) := add_event_inB m hin e
  have haddev : (m.getTile x y).addEvent e =
      { m.getTile x y with events := (m.getTile x y).events ++ [e] } := by
    unfold Tile.addEvent
    rw [if_neg hnm]
  have hWF1 : (m.add_event (x, y) e).WF := by
    rw [hadd]; exact WF_setTile m hWF hin _
  have hin1 : (m.add_event (x, y) e).inB x y := by
    rw [hadd]; exact hin
  have hget1 : (m.add_event (x, y) e).getTile x y =
      { m.getTile x y with events := (m.getTile x y).events ++ [e] } := by
    rw [hadd, haddev] at *
    exact getTile_setTile_self m hWF hin _
  have hmem1 : e ∈ ((m.add_event (x, y) e).getTile x y).events := by
    rw [hget1]
    simp
  constructor
  · rw [remove_eft_inB _ hin1 e, if_pos hmem1,
      getTile_setTile_self _ hWF1 hin1]
    rw [hget1]
    simp only []
    rw [List.erase_append_right _ (by simpa using hnm)]
    simp
  · rw [add_event_inB _ hin1 e]
    unfold Tile.addEvent
    rw [if_pos hmem1]
    exact setTile_getTile_self _ hWF1 hin1

/-- Witness for C6 (amended) on a fresh 1×1 maze. -/
theorem add_remove_roundtrip_spec_witness :
    maze22.WF ∧ maze22.inB 0 0 ∧ evBob.length = 4 ∧
      evBob ∉ (maze22.getTile 0 0).events ∧
      (((maze22.add_event (0, 0) evBob).remove_event_from_tile evBob
          (0, 0)).getTile 0 0).events = (maze22.getTile 0 0).events :=
  ⟨by decide, by decide, by decide, by decide,
    (add_remove_roundtrip_spec maze22 evBob 0 0 (by decide) (by decide)
      (by decide) (by decide)).1⟩

/-- `getD` over a mapped `range`. -/
theorem getD_range_map {α : Type} (n : Nat) (f : Nat → α) (d : α) (i : Nat)
    (h : i < n) : ((List.range n).map f).getD i d = f i := by
  rw [List.getD_eq_getElem?_getD, List.getElem?_map, List.getElem?_range h]
  rfl

/-- Expansion preserves the tiles of previously in-bounds coordinates. -/
theorem expand_getTile_old (m : Maze) {nw nh x y : Int}
    (hx0 : 0 ≤ x) (hxw : x < m.width) (hy0 : 0 ≤ y) (hyh : y < m.height)
    (hw : m.width ≤ nw) (hh : m.height ≤ nh) :
    (m.expand_maze nw nh).getTile x y = m.getTile x y := by
  simp only [Maze.expand_maze, Maze.getTile]
  rw [getD_range_map _ _ _ _ (by omega), getD_range_map _ _ _ _ (by omega),
    if_pos ⟨by omega, by omega⟩]
  rw [Int.toNat_of_nonneg hx0, Int.toNat_of_nonneg hy0]

/-- Expansion preserves the layout values of previously in-bounds
coordinates. -/
theorem expand_layoutAt_old (m : Maze) {nw nh x y : Int}
    (hx0 : 0 ≤ x) (hxw : x < m.width) (hy0 : 0 ≤ y) (hyh : y < m.height)
    (hw : m.width ≤ nw) (hh : m.height ≤ nh) :
    (m.expand_maze nw nh).layoutAt x y = m.layoutAt x y := by
  simp only [Maze.expand_maze, Maze.layoutAt]
  rw [getD_range_map _ _ _ _ (by omega), getD_range_map _ _ _ _ (by omega),
    if_pos ⟨by omega, by omega⟩]
  rw [Int.toNat_of_nonneg hx0, Int.toNat_of_nonneg hy0]

/-- Expansion fills coordinates beyond the old bounds with fresh
traversable tiles. -/
theorem expand_getTile_new (m : Maze) {nw nh x y : Int}
    (hx0 : 0 ≤ x) (hy0 : 0 ≤ y) (hxw : x < nw) (hyh : y < nh)
    (hnew : ¬ m.inB x y) :
    (m.expand_maze nw nh).getTile x y = freshTile x y := by
  simp only [Maze.inB] at hnew
  simp only [Maze.expand_maze, Maze.getTile]
  rw [getD_range_map _ _ _ _ (by omega), getD_range_map _ _ _ _ (by omega),
    if_neg (by omega)]
  rw [Int.toNat_of_nonneg hx0, Int.toNat_of_nonneg hy0]

/-- Expansion to nonnegative dimensions yields a well-formed maze. -/
theorem WF_expand (m : Maze) {nw nh : Int} (h0w : 0 ≤ nw) (h0h : 0 ≤ nh) :
    (m.expand_maze nw nh).WF := by
  refine ⟨h0w, h0h, ?_, ?_, ?_, ?_⟩
  · simp [Maze.expand_maze]
  · intro row hrow
    simp only [Maze.expand_maze, List.mem_map] at hrow
    obtain ⟨i, -, rfl⟩ := hrow
    simp [Maze.expand_maze]
  · simp [Maze.expand_maze]
  · intro row hrow
    simp only [Maze.expand_maze, List.mem_map] at hrow
    obtain ⟨i, -, rfl⟩ := hrow
    simp [Maze.expand_maze]

/-- C7 counterexample: requesting smaller dimensions is not a no-op; the
grid is truncated. -/
theorem expand_noop_counterexample : maze22.expand_maze 1 1 ≠ maze22 := by
  decide

/-- C7 (amended): expansion to dimensions at least the current ones
preserves every previously valid tile and its layout value bit-identically
and fills every newly created tile as traversable with empty event and
object sets; the rebuilt grid has exactly the requested dimensions (so a
request with a strictly smaller dimension truncates instead of being a
no-op, and the call is extensionally a no-op only at the current
dimensions). -/
theorem expand_maze_spec (m : Maze) (nw nh : Int)
    (hw : m.width ≤ nw) (hh : m.height ≤ nh) :
    (m.expand_maze nw nh).width = nw ∧
    (m.expand_maze nw nh).height = nh ∧
    (∀ x y : Int, m.inB x y →
      (m.expand_maze nw nh).getTile x y = m.getTile x y ∧
      (m.expand_maze nw nh).layoutAt x y = m.layoutAt x y) ∧
    (∀ x y : Int, (m.expand_maze nw nh).inB x y → ¬ m.inB x y →
      ((m.expand_maze nw nh).getTile x y).type = "traversable" ∧
      ((m.expand_maze nw nh).getTile x y).events = [] ∧
      ((m.expand_maze nw nh).getTile x y).objects = [] ∧
      ((m.expand_maze nw nh).getTile x y).description = "") := by
  refine ⟨rfl, rfl, ?_, ?_⟩
  · rintro x y ⟨hx0, hxw, hy0, hyh⟩
    exact ⟨expand_getTile_old m hx0 hxw hy0 hyh hw hh,
      expand_layoutAt_old m hx0 hxw hy0 hyh hw hh⟩
  · rintro x y ⟨hx0, hxw, hy0, hyh⟩ hold
    have hxw2 : x < nw := hxw
    have hyh2 : y < nh := hyh
    rw [expand_getTile_new m hx0 hy0 hxw2 hyh2 hold]
    exact ⟨rfl, rfl, rfl, rfl⟩

/-- Witness for C7 (amended): expanding the 2×2 maze to 3×3. -/
theorem expand_maze_spec_witness :
    maze22.width ≤ 3 ∧ maze22.height ≤ 3 ∧
      (maze22.expand_maze 3 3).width = 3 ∧
      (maze22.expand_maze 3 3).getTile 1 1 = maze22.getTile 1 1 ∧
      ((maze22.expand_maze 3 3).getTile 2 2).events = [] :=
  ⟨by decide, by decide, (expand_maze_spec maze22 3 3 (by decide) (by decide)).1,
    ((expand_maze_spec maze22 3 3 (by decide) (by decide)).2.2.1 1 1
      (by decide)).1,
    ((expand_maze_spec maze22 3 3 (by decide) (by decide)).2.2.2 2 2
      (by decide) (by decide)).2.1⟩

/-- C8 counterexample: constructing with width 0 silently falls back to
the default 10×10 grid (identical to a default construction), and a
negative width is accepted as given; no construction failure occurs. -/
theorem init_invalid_dims_counterexample :
    Maze.init 0 5 none = Maze.init 10 10 none ∧
    (Maze.init (-1) 5 none).width = -1 := by
  constructor
  · rfl
  · rfl

/-- C8 (amended): construction never fails; a zero (falsy) width or
height silently falls back to the default 10×10 grid, and any nonzero
dimensions — including negative ones — are accepted as given. -/
theorem init_dims_spec (w h : Int) (lay : Option (List (List Int))) :
    ((w = 0 ∨ h = 0) → Maze.init w h lay = Maze.init 10 10 none) ∧
    (w ≠ 0 → h ≠ 0 → (Maze.init w h lay).width = w ∧
      (Maze.init w h lay).height = h) := by
  constructor
  · intro hz
    unfold Maze.init
    rw [if_neg (by tauto), if_pos (by norm_num)]
    rfl
  · intro hw hh
    unfold Maze.init
    rw [if_pos ⟨hw, hh⟩]
    exact ⟨rfl, rfl⟩

/-- Witness for C8 (amended) at width 0 and at 3×4. -/
theorem init_dims_spec_witness :
    Maze.init 0 5 none = Maze.init 10 10 none ∧
      (Maze.init 3 4 none).width = 3 ∧ (Maze.init 3 4 none).height = 4 :=
  ⟨(init_dims_spec 0 5 none).1 (Or.inl rfl),
    (init_dims_spec 3 4 none).2 (by decide) (by decide)⟩

/-- In-bounds coordinates of a well-formed maze give plain nonnegative
Python indices. -/
theorem pyIdx_of_inB (m : Maze) (hWF : m.WF) {x y : Int} (hin : m.inB x y) :
    pyIdx m.tiles.length y = some y.toNat ∧
    pyIdx (m.tiles.getD y.toNat []).length x = some x.toNat := by
  have h1 := row_index_lt m hWF hin
  have h2 := col_index_lt m hWF hin
  obtain ⟨hx0, hxw, hy0, hyh⟩ := hin
  constructor
  · unfold pyIdx
    rw [if_pos hy0, if_pos (by omega)]
  · unfold pyIdx
    rw [if_pos hx0, if_pos (by omega)]

/-- The added event is a member of the updated tile's event list. -/
theorem mem_addEvent (t : Tile) (e : Event) : e ∈ (t.addEvent e).events := by
  unfold Tile.addEvent
  by_cases h : e ∈ t.events
  · rw [if_pos h]; exact h
  · rw [if_neg h]; simp

/-- Writing a tile leaves the observable events of every other coordinate
unchanged. -/
theorem get_events_at_setTile_ne (m : Maze) {x y : Int} (hx : 0 ≤ x)
    (hy : 0 ≤ y) (t : Tile) (u v : Int) (hne : ¬ (u = x ∧ v = y)) :
    (m.setTile x y t).get_events_at (u, v) = m.get_events_at (u, v) := by
  unfold Maze.get_events_at
  by_cases hin : m.inB u v
  · have hin2 : (m.setTile x y t).inB u v := hin
    rw [if_pos hin2, if_pos hin,
      getTile_setTile_ne m hx hy t u v hin.1 hin.2.2.1 hne]
  · have hin2 : ¬ (m.setTile x y t).inB u v := hin
    rw [if_neg hin2, if_neg hin]

/-- Growing expansion preserves the observable events of every
coordinate. -/
theorem expand_get_events_at (m : Maze) {nw nh : Int}
    (hw : m.width ≤ nw) (hh : m.height ≤ nh) (u v : Int) :
    (m.expand_maze nw nh).get_events_at (u, v) = m.get_events_at (u, v) := by
  by_cases hin : m.inB u v
  · have hin2 : (m.expand_maze nw nh).inB u v := by
      obtain ⟨h1, h2, h3, h4⟩ := hin
      refine ⟨h1, ?_, h3, ?_⟩
      · show u < nw
        omega
      · show v < nh
        omega
    unfold Maze.get_events_at
    rw [if_pos hin2, if_pos hin]
    obtain ⟨h1, h2, h3, h4⟩ := hin
    rw [expand_getTile_old m h1 h2 h3 h4 hw hh]
  · by_cases hin2 : (m.expand_maze nw nh).inB u v
    · unfold Maze.get_events_at
      rw [if_pos hin2, if_neg hin]
      obtain ⟨h1, h2, h3, h4⟩ := hin2
      have h2b : u < nw := h2
      have h4b : v < nh := h4
      rw [expand_getTile_new m h1 h3 h2b h4b hin]
      rfl
    · unfold Maze.get_events_at
      rw [if_neg hin2, if_neg hin]

/-- C9 counterexample: adding at the negative coordinate `(0, -1)` of the
2×2 maze succeeds without making `(0, -1)` valid; Python negative
indexing silently lands the event on tile `(0, 1)` instead. -/
theorem add_event_from_tile_counterexample :
    maze22.add_event_from_tile evC (0, -1) = some mazeShift ∧
    ¬ mazeShift.inB 0 (-1) ∧
    evC ∈ mazeShift.get_events_at (0, 1) ∧
    mazeShift.width = 2 ∧ mazeShift.height = 2 := by
  refine ⟨by decide, by decide, by decide, by decide, by decide⟩

/-- C9 (amended): for nonnegative coordinates, `add_event_from_tile`
succeeds, the coordinate is in bounds of the (possibly expanded) result,
the event is a member of exactly that tile's event set, and no other
coordinate's events change. -/
theorem add_event_from_tile_spec (m : Maze) (e : Event) (x y : Int)
    (hWF : m.WF) (hx : 0 ≤ x) (hy : 0 ≤ y) :
    ∃ m', m.add_event_from_tile e (x, y) = some m' ∧
      m'.inB x y ∧
      e ∈ m'.get_events_at (x, y) ∧
      ∀ u v : Int, ¬ (u = x ∧ v = y) →
        m'.get_events_at (u, v) = m.get_events_at (u, v) := by
  by_cases hin : m.inB x y
  · obtain ⟨hpy1, hpy2⟩ := pyIdx_of_inB m hWF hin
    refine ⟨m.setTile x y ((m.getTile x y).addEvent e), ?_, hin, ?_, ?_⟩
    · simp only [Maze.add_event_from_tile, if_neg (not_not_intro hin),
        hpy1, hpy2]
      rfl
    · unfold Maze.get_events_at
      rw [if_pos (show (m.setTile x y ((m.getTile x y).addEvent e)).inB x y
        from hin)]
      rw [getTile_setTile_self m hWF hin]
      exact mem_addEvent _ e
    · intro u v hne
      exact get_events_at_setTile_ne m hx hy _ u v hne
  · set m1 := m.expand_maze (max m.width (x + 1)) (max m.height (y + 1))
      with hm1
    have hWF1 : m1.WF := WF_expand m (by omega) (by omega)
    have hin1 : m1.inB x y := by
      refine ⟨hx, ?_, hy, ?_⟩
      · show x < max m.width (x + 1)
        omega
      · show y < max m.height (y + 1)
        omega
    obtain ⟨hpy1, hpy2⟩ := pyIdx_of_inB m1 hWF1 hin1
    refine ⟨m1.setTile x y ((m1.getTile x y).addEvent e), ?_, hin1, ?_, ?_⟩
    · simp only [Maze.add_event_from_tile, if_pos hin]
      rw [← hm1]
      simp only [hpy1, hpy2]
      rfl
    · unfold Maze.get_events_at
      rw [if_pos (show (m1.setTile x y ((m1.getTile x y).addEvent e)).inB x y
        from hin1)]
      rw [getTile_setTile_self m1 hWF1 hin1]
      exact mem_addEvent _ e
    · intro u v hne
      rw [get_events_at_setTile_ne m1 hx hy _ u v hne]
      exact expand_get_events_at m (le_max_left _ _) (le_max_left _ _) u v

/-- Witness for C9 (amended): adding at the out-of-bounds nonnegative
coordinate `(4, 1)` of the 2×2 maze expands the grid and lands the event
at exactly `(4, 1)`. -/
theorem add_event_from_tile_spec_witness :
    maze22.WF ∧ (0 : Int) ≤ 4 ∧ (0 : Int) ≤ 1 ∧
      maze22.add_event_from_tile evC (4, 1) = some mazeGrown ∧
      mazeGrown.inB 4 1 ∧ evC ∈ mazeGrown.get_events_at (4, 1) := by
  obtain ⟨m', h1, h2, h3, -⟩ :=
    add_event_from_tile_spec maze22 evC 4 1 (by decide) (by decide)
      (by decide)
  have hm : mazeGrown = m' := by
    unfold mazeGrown
    rw [h1]
    rfl
  exact ⟨by decide, by decide, by decide, hm ▸ h1, hm ▸ h2, hm ▸ h3⟩
